import Mathlib

/-!
Verification development for the ElectrsCash secondary index and query
server.  The Rust sources are shallowly embedded: byte strings become
`List Nat` (each element a byte value), machine integers become `Nat` or
`Int` with explicit wrapping where overflow matters, fallible code
returns `Option` or `Except`, and external collaborators (the SHA-256
digest of the `sha2`/`crypto` crates, the transaction fetcher backed by
the full node) are passed in as function parameters.
-/

namespace ElectrsCash

/-- A byte string; every element is a byte value (below 256). -/
abbrev Bytes := List Nat

/-- A 32-byte hash (`FullHash` in `src/scripthash.rs`). -/
abbrev FullHash := Bytes

/-- Modelled from the spec: `HASH_PREFIX_LEN` of the absent `src/util.rs`;
the spec fixes the hash prefix to the first 8 bytes of a hash. -/
def HASH_PREFIX_LEN : Nat := 8

/-- Modelled from the spec: `hash_prefix` of the absent `src/util.rs`;
per the spec it returns the first 8 bytes of a hash. -/
def prefix8 (h : Bytes) : Bytes := h.take HASH_PREFIX_LEN

/-- Embedding of `full_hash` of `src/scripthash.rs`: copies a 32-byte slice into an
owned buffer, hence the identity on our byte lists. -/
def full_hash (h : Bytes) : Bytes := h

/-- The all-zero hash, `Txid::default()` of the bitcoin crate. -/
def nullHash : FullHash := List.replicate 32 0

/-- Unsigned LEB128 encoding, `encode_varint` of `src/index.rs`
(the `unsigned_varint` crate). -/
def encode_varint (n : Nat) : Bytes :=
  if h : n < 0x80 then [n]
  else (n % 0x80 + 0x80) :: encode_varint (n / 0x80)
decreasing_by
  exact Nat.div_lt_self (by omega) (by omega)

/-- Little-endian fixed 4-byte encoding of a `u32` value (bincode legacy
fixint encoding used by `bincode::serialize`). -/
def u32LE (n : Nat) : Bytes :=
  [n % 256, n / 256 % 256, n / 256 ^ 2 % 256, n / 256 ^ 3 % 256]

/-- Little-endian fixed 8-byte encoding of a `u64` value. -/
def u64LE (n : Nat) : Bytes :=
  [n % 256, n / 256 % 256, n / 256 ^ 2 % 256, n / 256 ^ 3 % 256,
   n / 256 ^ 4 % 256, n / 256 ^ 5 % 256, n / 256 ^ 6 % 256, n / 256 ^ 7 % 256]

/-- Bincode encoding of a `Vec<u8>` field: a `u64` little-endian length
followed by the raw bytes. -/
def bincodeVec (b : Bytes) : Bytes := u64LE b.length ++ b

/-- One key-value pair of the secondary index (`Row` of `src/store.rs`). -/
structure Row where
  key : Bytes
  value : Bytes
deriving DecidableEq, Repr

/-- A transaction input: the previous output it spends
(`TxIn`/`OutPoint` of the bitcoin crate). -/
structure TxIn where
  prev_txid : FullHash
  prev_vout : Nat
deriving DecidableEq, Repr

/-- A transaction output (`TxOut` of the bitcoin crate). -/
structure TxOut where
  script_pubkey : Bytes
  value : Nat
deriving DecidableEq, Repr

/-- A transaction.  The txid is carried as a field: computing it
(double SHA-256 of the serialization) is done by the external bitcoin
crate (`txn.txid()`), outside the modelled core. -/
structure Transaction where
  txid : FullHash
  input : List TxIn
  output : List TxOut
deriving DecidableEq, Repr

/-- Embedding of `TxInRow::new(txid, input).to_row()` of `src/index.rs`: the bincode
serialization of `TxInKey` (code byte, previous-txid prefix, varint of
the previous vout) followed by `txid_prefix`; the value is empty.
0x49 is the byte value of the letter I. -/
def TxInRow.new (txid : FullHash) (inp : TxIn) : Row :=
  { key := [0x49] ++ prefix8 inp.prev_txid
      ++ bincodeVec (encode_varint inp.prev_vout) ++ prefix8 txid,
    value := [] }

/-- Embedding of `TxOutRow::new(txid, output, output_index).to_row()` of
`src/index.rs`; `sha` stands for `compute_script_hash` (single SHA-256,
external `crypto` crate).  0x4F is the byte value of the letter O. -/
def TxOutRow.new (sha : Bytes → FullHash) (txid : FullHash) (out : TxOut)
    (output_index : Nat) : Row :=
  { key := [0x4F] ++ prefix8 (sha out.script_pubkey) ++ prefix8 txid
      ++ bincodeVec (encode_varint output_index)
      ++ bincodeVec (encode_varint out.value),
    value := [] }

/-- Embedding of `TxRow::new(txid, height).to_row()` of `src/index.rs`: key is the
byte 0x54 (the letter T) followed by the full txid, value is the height
as a little-endian `u32`. -/
def TxRow.new (txid : FullHash) (height : Nat) : Row :=
  { key := [0x54] ++ full_hash txid, value := u32LE height }

/-- Embedding of `index_transaction(txn, height, None)` of `src/index.rs` (cashaccount
parser disabled, as in the mempool tracker): `I` rows for the
non-coinbase inputs, `O` rows for all outputs, then a single `T` row. -/
def index_transaction (sha : Bytes → FullHash) (txn : Transaction)
    (height : Nat) : List Row :=
  (txn.input.filterMap fun inp =>
      if inp.prev_txid = nullHash then none
      else some (TxInRow.new txn.txid inp))
    ++ (txn.output.enum.map fun p => TxOutRow.new sha txn.txid p.2 p.1)
    ++ [TxRow.new txn.txid height]

/-- Embedding of `MEMPOOL_HEIGHT` of `src/mempool.rs`. -/
def MEMPOOL_HEIGHT : Nat := 0x7FFFFFFF

lemma filterMap_if_eq_filter_map {α β : Type} (c : α → Prop) [DecidablePred c]
    (g : α → β) (l : List α) :
    (l.filterMap fun a => if c a then none else some (g a))
      = (l.filter fun a => decide ¬ c a).map g := by
  induction l with
  | nil => rfl
  | cons a l ih =>
    by_cases h : c a <;>
      simp [List.filterMap_cons, List.filter_cons, h, ih]

/-- First byte of an `I` row key. -/
lemma TxInRow_key_head (txid : FullHash) (inp : TxIn) :
    (TxInRow.new txid inp).key.take 1 = [0x49] := rfl

lemma TxOutRow_key_head (sha : Bytes → FullHash) (txid : FullHash)
    (out : TxOut) (i : Nat) :
    (TxOutRow.new sha txid out i).key.take 1 = [0x4F] := rfl

lemma TxRow_key_head (txid : FullHash) (h : Nat) :
    (TxRow.new txid h).key.take 1 = [0x54] := rfl

/-- C1.  For every transaction `txn` and height `h`, the rows produced by
`index_transaction(txn, h, None)` are exactly: one `I` row per input
whose previous-output txid is not the null hash (so coinbase inputs
produce no `I` row), one `O` row per output (OP_RETURN outputs
included: no output is filtered), and exactly one `T` row whose key is
0x54 (the letter T) followed by the transaction txid, and whose value
is the height
`h` as a little-endian `u32`.  Rows are classified by the first key
byte, which is 0x49, 0x4F, 0x54 for `I`, `O`, `T` rows respectively. -/
theorem c1_index_transaction_rows (sha : Bytes → FullHash)
    (txn : Transaction) (h : Nat) :
    ((index_transaction sha txn h).filter
        (fun r => decide (r.key.take 1 = [0x49])))
      = ((txn.input.filter fun inp => decide ¬ inp.prev_txid = nullHash).map
          (TxInRow.new txn.txid))
    ∧ ((index_transaction sha txn h).filter
        (fun r => decide (r.key.take 1 = [0x4F])))
      = (txn.output.enum.map fun p => TxOutRow.new sha txn.txid p.2 p.1)
    ∧ ((index_transaction sha txn h).filter
        (fun r => decide (r.key.take 1 = [0x54])))
      = [TxRow.new txn.txid h]
    ∧ (TxRow.new txn.txid h).key = 0x54 :: txn.txid
    ∧ (TxRow.new txn.txid h).value = u32LE h := by
  have hinputs : (txn.input.filterMap fun inp =>
      if inp.prev_txid = nullHash then none
      else some (TxInRow.new txn.txid inp))
      = (txn.input.filter fun inp => decide ¬ inp.prev_txid = nullHash).map
          (TxInRow.new txn.txid) :=
    filterMap_if_eq_filter_map _ _ _
  have memA : ∀ r ∈ (txn.input.filter fun inp =>
      decide ¬ inp.prev_txid = nullHash).map (TxInRow.new txn.txid),
      r.key.take 1 = [0x49] := by
    intro r hr
    rcases List.mem_map.mp hr with ⟨inp, _, rfl⟩
    rfl
  have memB : ∀ r ∈ txn.output.enum.map
      (fun p => TxOutRow.new sha txn.txid p.2 p.1),
      r.key.take 1 = [0x4F] := by
    intro r hr
    rcases List.mem_map.mp hr with ⟨p, _, rfl⟩
    rfl
  have filterA : ∀ b : Nat, b ≠ 0x49 →
      ((txn.input.filter fun inp => decide ¬ inp.prev_txid = nullHash).map
        (TxInRow.new txn.txid)).filter
          (fun r => decide (r.key.take 1 = [b])) = [] := by
    intro b hb
    refine List.filter_eq_nil_iff.mpr fun r hr => ?_
    have := memA r hr
    simp [this, hb]
    omega
  have filterB : ∀ b : Nat, b ≠ 0x4F →
      (txn.output.enum.map (fun p => TxOutRow.new sha txn.txid p.2 p.1)).filter
        (fun r => decide (r.key.take 1 = [b])) = [] := by
    intro b hb
    refine List.filter_eq_nil_iff.mpr fun r hr => ?_
    have := memB r hr
    simp [this, hb]
    omega
  have filterT : ∀ b : Nat, b ≠ 0x54 →
      ([TxRow.new txn.txid h].filter
        (fun r => decide (r.key.take 1 = [b]))) = [] := by
    intro b hb
    refine List.filter_eq_nil_iff.mpr fun r hr => ?_
    simp only [List.mem_singleton] at hr
    subst hr
    simp [TxRow.new, full_hash, hb]
    omega
  refine ⟨?_, ?_, ?_, rfl, rfl⟩
  · rw [index_transaction, List.filter_append, List.filter_append, hinputs,
      List.filter_eq_self.mpr (fun r hr => by simp [memA r hr]),
      filterB 0x49 (by omega), filterT 0x49 (by omega)]
    simp
  · rw [index_transaction, List.filter_append, List.filter_append, hinputs,
      filterA 0x4F (by omega),
      List.filter_eq_self.mpr (fun r hr => by simp [memB r hr]),
      filterT 0x4F (by omega)]
    simp
  · rw [index_transaction, List.filter_append, List.filter_append, hinputs,
      filterA 0x54 (by omega), filterB 0x54 (by omega),
      List.filter_eq_self.mpr (fun r hr => by
        simp only [List.mem_singleton] at hr
        subst hr
        simp [TxRow.new, full_hash])]
    simp

/-!
Mempool index (`MempoolStore` of `src/mempool.rs`).  The in-memory
`BTreeMap<Bytes, Vec<Bytes>>` is modelled extensionally as a total
function from keys to value stacks; the empty stack encodes key
absence.  This quotient is faithful on reachable states: `add` never
leaves an empty stack behind and `remove` deletes a key exactly when its
stack becomes empty, so a stored stack is never empty.  The two panic
paths of `remove` (missing key, empty stack) collapse to popping from
the empty stack, and the `assert_eq` on the popped value is modelled by
returning `none`.
-/

/-- The mempool index map: value stacks by key. -/
def MempoolIndex := Bytes → List Bytes

/-- One step of `MempoolStore::add`:
`self.map.entry(key).or_insert_with(|| vec![]).push(value)`. -/
def mempoolPush (m : MempoolIndex) (key value : Bytes) : MempoolIndex :=
  fun k => if k = key then m key ++ [value] else m k

/-- Embedding of `MempoolStore::add(tx)` of `src/mempool.rs`: push each row of
`index_transaction(tx, MEMPOOL_HEIGHT, None)` onto its key stack. -/
def MempoolStore.add (sha : Bytes → FullHash) (m : MempoolIndex)
    (tx : Transaction) : MempoolIndex :=
  (index_transaction sha tx MEMPOOL_HEIGHT).foldl
    (fun m r => mempoolPush m r.key r.value) m

/-- One step of `MempoolStore::remove`: pop the newest value for the key
(panic when there is none, modelled by `none`), assert it equals the
expected value, and drop the key when its stack empties. -/
def mempoolPop (m : MempoolIndex) (key value : Bytes) :
    Option MempoolIndex :=
  match (m key).getLast? with
  | none => none
  | some last =>
    if last = value then
      some (fun k => if k = key then (m key).dropLast else m k)
    else none

/-- Embedding of `MempoolStore::remove(tx)` of `src/mempool.rs`: pop each row of
`index_transaction(tx, MEMPOOL_HEIGHT, None)` in row order. -/
def MempoolStore.remove (sha : Bytes → FullHash) (m : MempoolIndex)
    (tx : Transaction) : Option MempoolIndex :=
  (index_transaction sha tx MEMPOOL_HEIGHT).foldl
    (fun om r => om.bind fun m => mempoolPop m r.key r.value) (some m)

/-- Embedding of `MempoolStore::get` of `src/mempool.rs` returns the newest value. -/
def MempoolStore.get (m : MempoolIndex) (key : Bytes) : Option Bytes :=
  (m key).getLast?

lemma foldl_push_apply (rows : List Row) (m : MempoolIndex) (k : Bytes) :
    rows.foldl (fun m r => mempoolPush m r.key r.value) m k
      = m k ++ (rows.filter fun r => decide (r.key = k)).map Row.value := by
  induction rows generalizing m with
  | nil => simp
  | cons r rows ih =>
    rw [List.foldl_cons, List.filter_cons, ih]
    by_cases hk : r.key = k
    · subst hk
      rw [if_pos (by simp)]
      simp [mempoolPush]
    · rw [if_neg (by simp [hk])]
      have h1 : mempoolPush m r.key r.value k = m k := by
        unfold mempoolPush
        rw [if_neg (fun hc => hk hc.symm)]
      rw [h1]

lemma singleton_append_all_eq {α : Type} (l : List α) (v : α)
    (h : ∀ x ∈ l, x = v) : [v] ++ l = l ++ [v] := by
  induction l with
  | nil => rfl
  | cons a l ih =>
    have ha : a = v := h a (by simp)
    subst ha
    show a :: ([a] ++ l) = a :: (l ++ [a])
    rw [ih (fun x hx => h x (by simp [hx]))]

lemma remove_add_foldl (rows : List Row)
    (hkv : ∀ r ∈ rows, ∀ r' ∈ rows, r.key = r'.key → r.value = r'.value)
    (m : MempoolIndex) :
    rows.foldl (fun om r => om.bind fun m' => mempoolPop m' r.key r.value)
      (some (rows.foldl (fun m' r => mempoolPush m' r.key r.value) m))
      = some m := by
  induction rows generalizing m with
  | nil => rfl
  | cons r rows ih =>
    have hvals : ∀ v ∈ (rows.filter fun r' =>
        decide (r'.key = r.key)).map Row.value, v = r.value := by
      intro v hv
      rcases List.mem_map.mp hv with ⟨r', hr', rfl⟩
      rcases List.mem_filter.mp hr' with ⟨hr'm, hr'k⟩
      exact (hkv r (by simp) r' (by simp [hr'm])
        (of_decide_eq_true hr'k).symm).symm
    have hstack : rows.foldl (fun m' r => mempoolPush m' r.key r.value)
        (mempoolPush m r.key r.value) r.key
        = (m r.key ++ (rows.filter fun r' =>
            decide (r'.key = r.key)).map Row.value) ++ [r.value] := by
      rw [foldl_push_apply]
      unfold mempoolPush
      rw [if_pos rfl, List.append_assoc,
        singleton_append_all_eq _ _ hvals, ← List.append_assoc]
    have hpop : mempoolPop (rows.foldl (fun m' r => mempoolPush m' r.key r.value)
        (mempoolPush m r.key r.value)) r.key r.value
        = some (rows.foldl (fun m' r => mempoolPush m' r.key r.value) m) := by
      unfold mempoolPop
      rw [hstack, List.getLast?_concat]
      simp only [if_pos rfl]
      refine congrArg some (funext fun k => ?_)
      by_cases hk : k = r.key
      · subst hk
        rw [if_pos rfl, List.dropLast_concat, foldl_push_apply]
      · rw [if_neg hk, foldl_push_apply, foldl_push_apply]
        have h1 : mempoolPush m r.key r.value k = m k := by
          unfold mempoolPush
          rw [if_neg hk]
        rw [h1]
    rw [List.foldl_cons, List.foldl_cons,
      show ((some (rows.foldl (fun m' r => mempoolPush m' r.key r.value)
          (mempoolPush m r.key r.value))).bind
        fun m' => mempoolPop m' r.key r.value)
        = mempoolPop (rows.foldl (fun m' r => mempoolPush m' r.key r.value)
            (mempoolPush m r.key r.value)) r.key r.value from rfl,
      hpop]
    exact ih (fun a ha b hb hab => hkv a (by simp [ha]) b (by simp [hb]) hab) m

lemma index_transaction_key_value (sha : Bytes → FullHash)
    (tx : Transaction) (h : Nat) :
    ∀ r ∈ index_transaction sha tx h, ∀ r' ∈ index_transaction sha tx h,
      r.key = r'.key → r.value = r'.value := by
  have classify : ∀ s ∈ index_transaction sha tx h,
      (s.value = [] ∧ s.key.take 1 ≠ [0x54]) ∨ s = TxRow.new tx.txid h := by
    intro s hs
    rw [index_transaction] at hs
    rcases List.mem_append.mp hs with hs | hs
    · rcases List.mem_append.mp hs with hs | hs
      · rcases List.mem_filterMap.mp hs with ⟨inp, _, hinp⟩
        by_cases hc : inp.prev_txid = nullHash
        · simp [hc] at hinp
        · rw [if_neg hc] at hinp
          cases hinp
          exact Or.inl ⟨rfl, by simp [TxInRow.new]⟩
      · rcases List.mem_map.mp hs with ⟨p, _, rfl⟩
        exact Or.inl ⟨rfl, by simp [TxOutRow.new]⟩
    · simp only [List.mem_singleton] at hs
      exact Or.inr hs
  intro r hr r' hr' hk
  rcases classify r hr with ⟨hv, hne⟩ | hT
  · rcases classify r' hr' with ⟨hv', _⟩ | hT'
    · rw [hv, hv']
    · exfalso
      apply hne
      rw [hk, hT']
      rfl
  · rcases classify r' hr' with ⟨_, hne'⟩ | hT'
    · exfalso
      apply hne'
      rw [← hk, hT]
      rfl
    · rw [hT, hT']

/-- C7.  Adding a transaction to the mempool index and then removing it
restores the index map to exactly its prior state, and every popped
value matches the pushed one (the `assert_eq` in `remove` cannot fire,
so `remove` returns successfully). -/
theorem c7_mempool_add_remove (sha : Bytes → FullHash) (m : MempoolIndex)
    (tx : Transaction) :
    MempoolStore.remove sha (MempoolStore.add sha m tx) tx = some m :=
  remove_add_foldl _ (index_transaction_key_value sha tx MEMPOOL_HEIGHT) m

/-!
Sized random-eviction cache (`RndCache` of `src/rndcache.rs`).  The
`IndexMap<K, (u32, V)>` is modelled as an insertion-ordered association
list; the random generator is an oracle `rand : Nat → Nat` indexed by an
eviction counter (`gen_range(0, len)` becomes `rand ctr % len`).
-/

/-- State of `RndCache<K, V>`. -/
structure RndCache (K V : Type) where
  map : List (K × Nat × V)
  bytes_capacity : Nat
  bytes_used : Nat
  entry_overhead : Nat
  rng_ctr : Nat
deriving Repr, DecidableEq

/-- Maximal `u32` value, bound checked by `RndCache::put`. -/
def u32Max : Nat := 0xFFFFFFFF

/-- Embedding of `RndCache::new(bytes_capacity, ..)`: the default per-entry overhead
is `size_of::<usize>() + size_of::<u32>() + size_of::<u32>()`, which is
16 on a 64-bit target. -/
def RndCache.new (K V : Type) (bytes_capacity : Nat) : RndCache K V :=
  { map := [], bytes_capacity := bytes_capacity, bytes_used := 0,
    entry_overhead := 8 + 4 + 4, rng_ctr := 0 }

/-- Embedding of `RndCache::fits_in_cache(bytes)`:
`self.bytes_used + bytes as u64 <= self.bytes_capacity` (note: the
per-entry overhead is not added here). -/
def RndCache.fits_in_cache {K V : Type} (c : RndCache K V) (bytes : Nat) :
    Bool :=
  c.bytes_used + bytes ≤ c.bytes_capacity

/-- Embedding of `IndexMap::swap_remove_index(i)`: the last entry is moved into slot
`i` and the last slot is dropped. -/
def swapRemoveIdx {α : Type} (l : List α) (i : Nat) : List α :=
  match l.getLast? with
  | none => l
  | some last => (l.set i last).dropLast

/-- Embedding of `RndCache::evict_random`: draw `gen_range(0, len)` from the oracle,
swap-remove the entry and release its bytes (`dec_bytes_used`).  With an
empty map, `gen_range(0, 0)` panics in the source; the state is returned
unchanged here (unreachable from `put`). -/
def RndCache.evict_random {K V : Type} (rand : Nat → Nat)
    (c : RndCache K V) : RndCache K V :=
  match c.map.get? (rand c.rng_ctr % c.map.length) with
  | none => c
  | some e =>
    { c with
      map := swapRemoveIdx c.map (rand c.rng_ctr % c.map.length),
      bytes_used := c.bytes_used - (e.2.1 + c.entry_overhead),
      rng_ctr := c.rng_ctr + 1 }

lemma swapRemoveIdx_length {α : Type} (l : List α) (i : Nat) (hl : l ≠ []) :
    (swapRemoveIdx l i).length = l.length - 1 := by
  unfold swapRemoveIdx
  match h : l.getLast? with
  | none => exact absurd (List.getLast?_eq_none_iff.mp h) hl
  | some last => simp

lemma evict_random_length {K V : Type} (rand : Nat → Nat) (c : RndCache K V)
    (hne : c.map ≠ []) :
    ((RndCache.evict_random rand c).map).length = c.map.length - 1 := by
  unfold RndCache.evict_random
  have hlt : rand c.rng_ctr % c.map.length < c.map.length :=
    Nat.mod_lt _ (List.length_pos.mpr hne)
  match h : c.map.get? (rand c.rng_ctr % c.map.length) with
  | none =>
    rw [List.get?_eq_none] at h
    omega
  | some e => simpa using swapRemoveIdx_length c.map _ hne

/-- Eviction loop of `RndCache::put`, fuel-indexed:
`while !self.fits_in_cache(size) { self.evict_random(); }`.  Each pass
through the loop body removes one entry, so the loop runs at most
`map.length` times before the map is empty (at which point the source
would panic inside `gen_range(0, 0)`); the fuel argument makes the
recursion structural without changing the computed state. -/
def RndCache.evictFuel {K V : Type} (rand : Nat → Nat) (size : Nat) :
    Nat → RndCache K V → RndCache K V
  | 0, c => c
  | fuel + 1, c =>
    if c.fits_in_cache size then c
    else if c.map.length = 0 then c
    else RndCache.evictFuel rand size fuel (RndCache.evict_random rand c)

/-- The eviction loop of `RndCache::put`, with enough fuel to reach the
loop exit. -/
def RndCache.evictLoop {K V : Type} (rand : Nat → Nat) (c : RndCache K V)
    (size : Nat) : RndCache K V :=
  RndCache.evictFuel rand size (c.map.length + 1) c

/-- Index of a key in the map, with the stored entry size
(`IndexMap::insert` replaces the value of an existing key in place). -/
def findEntryIdx {K V : Type} [DecidableEq K] (l : List (K × Nat × V))
    (k : K) : Option (Nat × Nat) :=
  match l with
  | [] => none
  | e :: rest =>
    if e.1 = k then some (0, e.2.1)
    else (findEntryIdx rest k).map fun p => (p.1 + 1, p.2)

/-- Embedding of `RndCache::put(k, v, size)` of `src/rndcache.rs`. -/
def RndCache.put {K V : Type} [DecidableEq K] (rand : Nat → Nat)
    (c : RndCache K V) (k : K) (v : V) (size : Nat) : RndCache K V :=
  if size > c.bytes_capacity then c
  else if size + c.entry_overhead > u32Max then c
  else
    let c1 := RndCache.evictLoop rand c size
    match findEntryIdx c1.map k with
    | some p =>
      -- key existed: value replaced in place, old bytes released
      { c1 with
        map := c1.map.set p.1 (k, size, v),
        bytes_used := c1.bytes_used - (p.2 + c1.entry_overhead)
          + (size + c1.entry_overhead) }
    | none =>
      { c1 with
        map := c1.map ++ [(k, size, v)],
        bytes_used := c1.bytes_used + (size + c1.entry_overhead) }

/-- Embedding of `RndCache::get(k)` returns the stored value without touching any
recency state. -/
def RndCache.get {K V : Type} [DecidableEq K] (c : RndCache K V) (k : K) :
    Option V :=
  (findEntryIdx c.map k).bind fun p => (c.map.get? p.1).map fun e => e.2.2

/-- C4.  The code violates the claimed invariant: the eviction loop of
`put` checks `bytes_used + size <= capacity` without the per-entry
overhead, while the subsequent accounting adds `size + entry_overhead`.
With the production overhead of 16 bytes, putting a 90-byte entry into
an empty cache of capacity 100 evicts nothing and leaves
`bytes_used = 106 > 100 = bytes_capacity`. -/
theorem c4_put_breaks_capacity_invariant :
    ((RndCache.new Nat Nat 100).bytes_used ≤
        (RndCache.new Nat Nat 100).bytes_capacity)
    ∧ (RndCache.put (fun _ => 0) (RndCache.new Nat Nat 100) 0 0 90).bytes_used
        = 106
    ∧ (RndCache.put (fun _ => 0) (RndCache.new Nat Nat 100) 0 0
        90).bytes_capacity = 100
    ∧ ¬ ((RndCache.put (fun _ => 0) (RndCache.new Nat Nat 100) 0 0
        90).bytes_used
          ≤ (RndCache.put (fun _ => 0) (RndCache.new Nat Nat 100) 0 0
            90).bytes_capacity) := by
  refine ⟨by decide, by decide, by decide, by decide⟩

/-- C9.  A `put` whose size exceeds the byte capacity returns without
touching the cache: the state (map, bytes accounting, rng position) is
exactly unchanged. -/
theorem c9_put_oversize_is_noop {K V : Type} [DecidableEq K]
    (rand : Nat → Nat) (c : RndCache K V) (k : K) (v : V) (size : Nat)
    (hsize : size > c.bytes_capacity) :
    RndCache.put rand c k v size = c := by
  unfold RndCache.put
  rw [if_pos hsize]

/-- Witness for C9 at a concrete oversized insert. -/
theorem c9_put_oversize_is_noop_witness :
    101 > (RndCache.new Nat Nat 100).bytes_capacity
    ∧ RndCache.put (fun _ => 0) (RndCache.new Nat Nat 100) 5 7 101
        = RndCache.new Nat Nat 100 :=
  ⟨by decide, c9_put_oversize_is_noop (fun _ => 0) _ 5 7 101 (by decide)⟩

/-!
Generic comparison sort.  The Rust side uses `sort_unstable_by`, an
unstable comparison sort whose tie order is unspecified; any comparison
sort is a faithful model, and a plain insertion sort keeps the proofs
elementary.
-/

/-- Insert `a` in front of the first element `b` with `le a b`. -/
def insertSorted {α : Type} (le : α → α → Bool) (a : α) :
    List α → List α
  | [] => [a]
  | b :: l => if le a b then a :: b :: l else b :: insertSorted le a l

/-- Insertion sort with a boolean comparison. -/
def sortBy {α : Type} (le : α → α → Bool) : List α → List α
  | [] => []
  | a :: l => insertSorted le a (sortBy le l)

lemma mem_insertSorted {α : Type} (le : α → α → Bool) (a x : α)
    (l : List α) : x ∈ insertSorted le a l ↔ x = a ∨ x ∈ l := by
  induction l with
  | nil => simp [insertSorted]
  | cons b l ih =>
    unfold insertSorted
    by_cases hab : le a b
    · simp [hab]
    · simp only [hab]
      simp [ih]
      tauto

lemma mem_sortBy {α : Type} (le : α → α → Bool) (x : α) (l : List α) :
    x ∈ sortBy le l ↔ x ∈ l := by
  induction l with
  | nil => simp [sortBy]
  | cons a l ih =>
    unfold sortBy
    rw [mem_insertSorted, ih]
    simp

lemma pairwise_insertSorted {α : Type} (le : α → α → Bool)
    (htot : ∀ a b, le a b ∨ le b a) (a : α) (l : List α)
    (hl : List.Pairwise (fun x y => le x y = true) l)
    (htrans : ∀ x ∈ a :: l, ∀ y ∈ a :: l, ∀ z ∈ a :: l,
      le x y → le y z → le x z) :
    List.Pairwise (fun x y => le x y = true) (insertSorted le a l) := by
  induction l with
  | nil => simp [insertSorted]
  | cons b l ih =>
    rw [List.pairwise_cons] at hl
    obtain ⟨hb, hl'⟩ := hl
    have hmem : ∀ w ∈ a :: l, w ∈ a :: b :: l := by
      intro w hw
      rw [List.mem_cons] at hw
      rcases hw with rfl | hw
      · simp
      · simp [hw]
    unfold insertSorted
    by_cases hab : le a b
    · rw [if_pos hab, List.pairwise_cons]
      constructor
      · intro x hx
        rw [List.mem_cons] at hx
        rcases hx with rfl | hx
        · exact hab
        · exact htrans a (by simp) b (by simp) x (by simp [hx]) hab (hb x hx)
      · exact List.Pairwise.cons hb hl'
    · rw [if_neg hab, List.pairwise_cons]
      constructor
      · intro x hx
        rw [mem_insertSorted] at hx
        rcases hx with rfl | hx
        · rcases htot x b with hxb | hbx
          · exact absurd hxb hab
          · exact hbx
        · exact hb x hx
      · exact ih hl' fun x hx y hy z hz =>
          htrans x (hmem x hx) y (hmem y hy) z (hmem z hz)

lemma pairwise_sortBy {α : Type} (le : α → α → Bool)
    (htot : ∀ a b, le a b ∨ le b a) (l : List α)
    (htrans : ∀ x ∈ l, ∀ y ∈ l, ∀ z ∈ l, le x y → le y z → le x z) :
    List.Pairwise (fun x y => le x y = true) (sortBy le l) := by
  induction l with
  | nil => exact List.Pairwise.nil
  | cons a l ih =>
    unfold sortBy
    refine pairwise_insertSorted le htot a (sortBy le l)
      (ih (fun x hx y hy z hz => htrans x (by simp [hx]) y (by simp [hy]) z
        (by simp [hz]))) ?_
    intro x hx y hy z hz
    have hmem : ∀ w, w ∈ a :: sortBy le l → w ∈ a :: l := by
      intro w hw
      rcases hw with _ | hw
      · simp
      · simp [List.mem_cons, (mem_sortBy le w l).mp (by assumption)]
    exact htrans x (hmem x hx) y (hmem y hy) z (hmem z hz)

/-!
Fee histogram (`src/mempool.rs`).
-/

/-- Modelled from the spec: `MempoolEntry` of the absent `src/daemon.rs`.
Per the spec a mempool entry carries its fee (satoshis) and virtual size
(vbytes), and entries are ordered by fee per vbyte.  Fee rates are
modelled as exact rationals in place of `f32`; on the inputs considered
in the fee-histogram claim every fee rate and every fee-rate difference
is exactly representable in `f32`, so the two arithmetics agree. -/
structure MempoolEntry where
  fee : Nat
  vsize : Nat
deriving DecidableEq, Repr

/-- Modelled from the spec: fee rate in satoshis per vbyte. -/
def MempoolEntry.fee_per_vbyte (e : MempoolEntry) : ℚ :=
  (e.fee : ℚ) / (e.vsize : ℚ)

/-- Embedding of `VSIZE_BIN_WIDTH` of `src/mempool.rs` (in vbytes). -/
def VSIZE_BIN_WIDTH : Nat := 100000

/-- The `error_margin` constant of `electrum_fees`
(`1.192_092_9e-7`, about `f32::EPSILON`). -/
def error_margin : ℚ := 11920929 / 10 ^ 14

/-- Loop body of `electrum_fees`: state is
(histogram, bin_size, last_fee_rate). -/
def electrumFeesStep (st : List (ℚ × Nat) × Nat × ℚ) (e : MempoolEntry) :
    List (ℚ × Nat) × Nat × ℚ :=
  let fee_rate := e.fee_per_vbyte
  let pushed :=
    if st.2.1 > VSIZE_BIN_WIDTH ∧ |st.2.2 - fee_rate| > error_margin then
      (st.1 ++ [(st.2.2, st.2.1)], 0)
    else (st.1, st.2.1)
  (pushed.1, pushed.2 + e.vsize, fee_rate)

/-- Embedding of `electrum_fees(entries)` of `src/mempool.rs`: walk the entries in
reverse (descending fee-rate) order accumulating vsize bins, then emit
the final partial bin. -/
def electrum_fees (entries : List MempoolEntry) : List (ℚ × Nat) :=
  let st := entries.reverse.foldl electrumFeesStep ([], 0, 0)
  if st.2.1 > 0 then st.1 ++ [(st.2.2, st.2.1)] else st.1

/-- Embedding of `Tracker::update_fee_histogram` of `src/mempool.rs`: sort the
entries ascending by fee per vbyte, then compute the histogram. -/
def update_fee_histogram (entries : List MempoolEntry) : List (ℚ × Nat) :=
  electrum_fees
    (sortBy (fun e1 e2 => e1.fee_per_vbyte ≤ e2.fee_per_vbyte) entries)

/-- C5.  On the mempool of the spec scenario — six entries, ascending
fee per vbyte — the fee histogram is `[(3.0, 150_000), (1.0, 121_000)]`,
both for `electrum_fees` on the pre-sorted list and for the full
`update_fee_histogram` recomputation. -/
theorem c5_fee_histogram :
    electrum_fees
        [⟨1000, 1000⟩, ⟨10000, 10000⟩, ⟨50000, 50000⟩,
          ⟨120000, 60000⟩, ⟨210000, 70000⟩, ⟨320000, 80000⟩]
      = [(3, 150000), (1, 121000)]
    ∧ update_fee_histogram
        [⟨1000, 1000⟩, ⟨10000, 10000⟩, ⟨50000, 50000⟩,
          ⟨120000, 60000⟩, ⟨210000, 70000⟩, ⟨320000, 80000⟩]
      = [(3, 150000), (1, 121000)] := by
  have h1 : electrumFeesStep ([], 0, 0) ⟨320000, 80000⟩
      = ([], 80000, 4) := by
    norm_num [electrumFeesStep, MempoolEntry.fee_per_vbyte,
      VSIZE_BIN_WIDTH, error_margin]
  have h2 : electrumFeesStep ([], 80000, 4) ⟨210000, 70000⟩
      = ([], 150000, 3) := by
    norm_num [electrumFeesStep, MempoolEntry.fee_per_vbyte,
      VSIZE_BIN_WIDTH, error_margin]
  have h3 : electrumFeesStep ([], 150000, 3) ⟨120000, 60000⟩
      = ([(3, 150000)], 60000, 2) := by
    norm_num [electrumFeesStep, MempoolEntry.fee_per_vbyte,
      VSIZE_BIN_WIDTH, error_margin]
  have h4 : electrumFeesStep ([(3, 150000)], 60000, 2) ⟨50000, 50000⟩
      = ([(3, 150000)], 110000, 1) := by
    norm_num [electrumFeesStep, MempoolEntry.fee_per_vbyte,
      VSIZE_BIN_WIDTH, error_margin]
  have h5 : electrumFeesStep ([(3, 150000)], 110000, 1) ⟨10000, 10000⟩
      = ([(3, 150000)], 120000, 1) := by
    norm_num [electrumFeesStep, MempoolEntry.fee_per_vbyte,
      VSIZE_BIN_WIDTH, error_margin]
  have h6 : electrumFeesStep ([(3, 150000)], 120000, 1) ⟨1000, 1000⟩
      = ([(3, 150000)], 121000, 1) := by
    norm_num [electrumFeesStep, MempoolEntry.fee_per_vbyte,
      VSIZE_BIN_WIDTH, error_margin]
  have hfees : electrum_fees
      [⟨1000, 1000⟩, ⟨10000, 10000⟩, ⟨50000, 50000⟩,
        ⟨120000, 60000⟩, ⟨210000, 70000⟩, ⟨320000, 80000⟩]
      = [(3, 150000), (1, 121000)] := by
    unfold electrum_fees
    rw [show ([⟨1000, 1000⟩, ⟨10000, 10000⟩, ⟨50000, 50000⟩,
          ⟨120000, 60000⟩, ⟨210000, 70000⟩,
          ⟨320000, 80000⟩] : List MempoolEntry).reverse
        = [⟨320000, 80000⟩, ⟨210000, 70000⟩, ⟨120000, 60000⟩,
            ⟨50000, 50000⟩, ⟨10000, 10000⟩, ⟨1000, 1000⟩] from rfl]
    rw [List.foldl_cons, h1, List.foldl_cons, h2, List.foldl_cons, h3,
      List.foldl_cons, h4, List.foldl_cons, h5, List.foldl_cons, h6,
      List.foldl_nil]
    norm_num
  refine ⟨hfees, ?_⟩
  have hsort : sortBy
      (fun e1 e2 : MempoolEntry =>
        decide (e1.fee_per_vbyte ≤ e2.fee_per_vbyte))
      [⟨1000, 1000⟩, ⟨10000, 10000⟩, ⟨50000, 50000⟩,
        ⟨120000, 60000⟩, ⟨210000, 70000⟩, ⟨320000, 80000⟩]
      = [⟨1000, 1000⟩, ⟨10000, 10000⟩, ⟨50000, 50000⟩,
          ⟨120000, 60000⟩, ⟨210000, 70000⟩, ⟨320000, 80000⟩] := by
    norm_num [sortBy, insertSorted, MempoolEntry.fee_per_vbyte]
  unfold update_fee_histogram
  rw [hsort]
  exact hfees

/-!
DoS limits (`GlobalLimits` of `src/doslimit.rs`).  The
`HashMap<[u8; 2], u32>` of per-prefix counters is modelled as a function
to `Option Nat` (so that a key explicitly present with count 0 is
distinguished from an absent key, as in the source); the `AtomicI32`
total is an `Int`.
-/

/-- Cast of a `Nat` to the value of an `i32` (twos-complement wrap), as
performed by `max_connections_total as i32` in `GlobalLimits::new`. -/
def toI32 (n : Nat) : Int :=
  if n % 2 ^ 32 < 2 ^ 31 then ((n % 2 ^ 32 : Nat) : Int)
  else ((n % 2 ^ 32 : Nat) : Int) - 2 ^ 32

/-- Wrapping `u32` decrement (`*count -= 1` in release mode). -/
def u32WrapSub1 (c : Nat) : Nat := (c + 0xFFFFFFFF) % 0x100000000

/-- Embedding of `get_prefix(addr)` of `src/doslimit.rs`: the first two octets of the
address (IPv4 or IPv6). -/
def ipPrefix2 (addr : List Nat) : List Nat := addr.take 2

/-- State of `GlobalLimits`. -/
structure GlobalLimits where
  max_connections_total : Int
  max_connections_shared_prefix : Nat
  total_connections : Int
  total_prefixed_connections : List Nat → Option Nat

/-- Embedding of `GlobalLimits::new(max_connections_total, max_connections_shared_prefix, ..)`. -/
def GlobalLimits.new (maxTotal maxShared : Nat) : GlobalLimits :=
  { max_connections_total := toI32 maxTotal,
    max_connections_shared_prefix := maxShared,
    total_connections := 0,
    total_prefixed_connections := fun _ => none }

/-- Rejection reasons of `inc_connection` (prefix slot limit versus
global slot limit). -/
inductive ConnLimitError
  | prefixLimit
  | globalLimit
deriving DecidableEq, Repr

/-- The per-prefix connection count (an absent entry counts zero). -/
def GlobalLimits.countOf (s : GlobalLimits) (p : List Nat) : Nat :=
  (s.total_prefixed_connections p).getD 0

/-- Embedding of `GlobalLimits::inc_connection(addr)` of `src/doslimit.rs`.  The
entry for the prefix is materialized with 0 (`or_insert(0)`), the
prefix limit is checked first, then the total limit
(`fetch_update`); only after both checks is the prefix count bumped.
Returns the outcome together with the post-call state. -/
def GlobalLimits.inc_connection (s : GlobalLimits) (addr : List Nat) :
    Except ConnLimitError (Nat × Nat) × GlobalLimits :=
  if (s.total_prefixed_connections (ipPrefix2 addr)).getD 0
      ≥ s.max_connections_shared_prefix then
    (.error .prefixLimit,
      { s with total_prefixed_connections := fun q =>
          if q = ipPrefix2 addr then
            some ((s.total_prefixed_connections (ipPrefix2 addr)).getD 0)
          else s.total_prefixed_connections q })
  else if s.total_connections < s.max_connections_total then
    (.ok ((s.total_connections + 1).toNat,
        (s.total_prefixed_connections (ipPrefix2 addr)).getD 0 + 1),
      { s with
        total_connections := s.total_connections + 1,
        total_prefixed_connections := fun q =>
          if q = ipPrefix2 addr then
            some ((s.total_prefixed_connections (ipPrefix2 addr)).getD 0 + 1)
          else s.total_prefixed_connections q })
  else
    (.error .globalLimit,
      { s with total_prefixed_connections := fun q =>
          if q = ipPrefix2 addr then
            some ((s.total_prefixed_connections (ipPrefix2 addr)).getD 0)
          else s.total_prefixed_connections q })

/-- Embedding of `GlobalLimits::dec_connection(addr)` of `src/doslimit.rs`: the
prefix count is decremented first (a missing prefix entry only logs a
warning), then the total is decremented unless already at zero. -/
def GlobalLimits.dec_connection (s : GlobalLimits) (addr : List Nat) :
    Except Unit (Nat × Nat) × GlobalLimits :=
  match s.total_prefixed_connections (ipPrefix2 addr) with
  | some cnt =>
    if s.total_connections ≤ 0 then
      (.error (),
        { s with total_prefixed_connections := fun q =>
            if q = ipPrefix2 addr then some (u32WrapSub1 cnt)
            else s.total_prefixed_connections q })
    else
      (.ok ((s.total_connections - 1).toNat, u32WrapSub1 cnt),
        { s with
          total_connections := s.total_connections - 1,
          total_prefixed_connections := fun q =>
            if q = ipPrefix2 addr then some (u32WrapSub1 cnt)
            else s.total_prefixed_connections q })
  | none =>
    if s.total_connections ≤ 0 then (.error (), s)
    else (.ok ((s.total_connections - 1).toNat, 0),
      { s with total_connections := s.total_connections - 1 })

/-- Whether an `Except` outcome is an error. -/
def isErr {ε α : Type} : Except ε α → Bool
  | .error _ => true
  | .ok _ => false

/-- C8.  `inc_connection` fails exactly when the per-prefix count has
reached `max_connections_shared_prefix` or the total has reached
`max_connections_total`, with the prefix check first; on failure
neither counter changes (value-wise), on success both grow by exactly
one and no other prefix is touched; `dec_connection` symmetrically
decrements both counters. -/
theorem c8_connection_limits (s : GlobalLimits) (addr : List Nat) :
    (isErr (GlobalLimits.inc_connection s addr).1 = true
      ↔ (s.countOf (ipPrefix2 addr) ≥ s.max_connections_shared_prefix
        ∨ s.total_connections ≥ s.max_connections_total))
    ∧ (s.countOf (ipPrefix2 addr) ≥ s.max_connections_shared_prefix →
        (GlobalLimits.inc_connection s addr).1
          = .error ConnLimitError.prefixLimit)
    ∧ (isErr (GlobalLimits.inc_connection s addr).1 = true →
        (GlobalLimits.inc_connection s addr).2.total_connections
            = s.total_connections
          ∧ ∀ q, (GlobalLimits.inc_connection s addr).2.countOf q
            = s.countOf q)
    ∧ (isErr (GlobalLimits.inc_connection s addr).1 = false →
        (GlobalLimits.inc_connection s addr).2.total_connections
            = s.total_connections + 1
          ∧ (GlobalLimits.inc_connection s addr).2.countOf (ipPrefix2 addr)
            = s.countOf (ipPrefix2 addr) + 1
          ∧ ∀ q, q ≠ ipPrefix2 addr →
            (GlobalLimits.inc_connection s addr).2.countOf q = s.countOf q)
    ∧ (∀ cnt, s.total_prefixed_connections (ipPrefix2 addr) = some cnt →
        1 ≤ cnt → cnt < 2 ^ 32 → 0 < s.total_connections →
        (GlobalLimits.dec_connection s addr).1
            = .ok ((s.total_connections - 1).toNat, cnt - 1)
          ∧ (GlobalLimits.dec_connection s addr).2.total_connections
            = s.total_connections - 1
          ∧ (GlobalLimits.dec_connection s addr).2.countOf (ipPrefix2 addr)
            = s.countOf (ipPrefix2 addr) - 1
          ∧ ∀ q, q ≠ ipPrefix2 addr →
            (GlobalLimits.dec_connection s addr).2.countOf q
              = s.countOf q) := by
  have hwrap : ∀ cnt, 1 ≤ cnt → cnt < 2 ^ 32 → u32WrapSub1 cnt = cnt - 1 := by
    intro cnt h1 h2
    unfold u32WrapSub1
    omega
  refine ⟨?_, ?_, ?_, ?_, ?_⟩
  · unfold GlobalLimits.inc_connection GlobalLimits.countOf
    by_cases h1 : (s.total_prefixed_connections (ipPrefix2 addr)).getD 0
        ≥ s.max_connections_shared_prefix
    · rw [if_pos h1]
      exact iff_of_true rfl (Or.inl h1)
    · rw [if_neg h1]
      by_cases h2 : s.total_connections < s.max_connections_total
      · rw [if_pos h2]
        exact iff_of_false (by simp [isErr]) (by omega)
      · rw [if_neg h2]
        exact iff_of_true rfl (Or.inr (by omega))
  · intro h1
    unfold GlobalLimits.countOf at h1
    unfold GlobalLimits.inc_connection
    rw [if_pos h1]
  · unfold GlobalLimits.inc_connection GlobalLimits.countOf
    by_cases h1 : (s.total_prefixed_connections (ipPrefix2 addr)).getD 0
        ≥ s.max_connections_shared_prefix
    · rw [if_pos h1]
      intro
      refine ⟨rfl, fun q => ?_⟩
      by_cases hq : q = ipPrefix2 addr
      · subst hq
        simp
      · simp [hq]
    · rw [if_neg h1]
      by_cases h2 : s.total_connections < s.max_connections_total
      · rw [if_pos h2]
        intro hcontra
        simp [isErr] at hcontra
      · rw [if_neg h2]
        intro
        refine ⟨rfl, fun q => ?_⟩
        by_cases hq : q = ipPrefix2 addr
        · subst hq
          simp
        · simp [hq]
  · unfold GlobalLimits.inc_connection GlobalLimits.countOf
    by_cases h1 : (s.total_prefixed_connections (ipPrefix2 addr)).getD 0
        ≥ s.max_connections_shared_prefix
    · rw [if_pos h1]
      intro hcontra
      simp [isErr] at hcontra
    · rw [if_neg h1]
      by_cases h2 : s.total_connections < s.max_connections_total
      · rw [if_pos h2]
        intro
        refine ⟨rfl, by simp, fun q hq => ?_⟩
        simp [hq]
      · rw [if_neg h2]
        intro hcontra
        simp [isErr] at hcontra
  · intro cnt hcnt h1 h2 h3
    unfold GlobalLimits.dec_connection GlobalLimits.countOf
    rw [hcnt]
    simp only []
    rw [if_neg (by omega)]
    refine ⟨by rw [hwrap cnt h1 h2], rfl, ?_, fun q hq => ?_⟩
    · simp [hcnt, hwrap cnt h1 h2]
    · simp [hq]

/-- Witness for C8: a concrete state (limits 100 total, 2 per prefix,
one existing connection on the prefix) where `inc_connection` succeeds
and `dec_connection` decrements what `inc` incremented. -/
theorem c8_connection_limits_witness :
    (GlobalLimits.inc_connection
        { max_connections_total := 100,
          max_connections_shared_prefix := 2,
          total_connections := 1,
          total_prefixed_connections :=
            fun q => if q = [1, 2] then some 1 else none }
        [1, 2, 3, 4]).2.total_connections = 2
    ∧ (GlobalLimits.dec_connection
        { max_connections_total := 100,
          max_connections_shared_prefix := 2,
          total_connections := 1,
          total_prefixed_connections :=
            fun q => if q = [1, 2] then some 1 else none }
        [1, 2, 3, 4]).1 = .ok (0, 0) := by
  have h := c8_connection_limits
    { max_connections_total := 100,
      max_connections_shared_prefix := 2,
      total_connections := 1,
      total_prefixed_connections :=
        fun q => if q = [1, 2] then some 1 else none }
    [1, 2, 3, 4]
  refine ⟨(h.2.2.2.1 (by decide)).1.trans (by decide), ?_⟩
  have hd := h.2.2.2.2 1 (by decide) (by decide) (by decide) (by decide)
  exact hd.1.trans (congrArg Except.ok (by decide))

/-!
Script-hash hex encoding (`src/scripthash.rs`).  The `hex` crate encodes
to lowercase and accepts both cases on decode.
-/

/-- Lowercase hex digit of a value below 16 (48 is the code of the
character 0, 97 of the character a). -/
def hexDigitChar (d : Nat) : Char :=
  if d < 10 then Char.ofNat (48 + d) else Char.ofNat (87 + d)

/-- Character list of the lowercase hex encoding of a byte string. -/
def hexChars : Bytes → List Char
  | [] => []
  | b :: bs => hexDigitChar (b / 16) :: hexDigitChar (b % 16) :: hexChars bs

/-- Embedding of `hex::encode`: lowercase hex string of a byte string. -/
def hexEncode (bs : Bytes) : String := String.mk (hexChars bs)

/-- Value of one hex digit character, upper or lower case
(`hex::decode` accepts both). -/
def unhexDigit (c : Char) : Option Nat :=
  if 48 ≤ c.toNat ∧ c.toNat ≤ 57 then some (c.toNat - 48)
  else if 97 ≤ c.toNat ∧ c.toNat ≤ 102 then some (c.toNat - 87)
  else if 65 ≤ c.toNat ∧ c.toNat ≤ 70 then some (c.toNat - 55)
  else none

/-- Embedding of `hex::decode` on a character list: consumes digit pairs, failing on
an odd length or a non-hex character. -/
def hexDecodeChars : List Char → Option Bytes
  | [] => some []
  | [_] => none
  | c1 :: c2 :: rest => do
    let d1 ← unhexDigit c1
    let d2 ← unhexDigit c2
    let tail ← hexDecodeChars rest
    some ((16 * d1 + d2) :: tail)

/-- Embedding of `hex::decode` on a string. -/
def hexDecode (s : String) : Option Bytes := hexDecodeChars s.data

/-- Embedding of `ToLEHex::to_le_hex` of `src/scripthash.rs`: reverse the 32 bytes,
then hex-encode. -/
def to_le_hex (h : FullHash) : String := hexEncode h.reverse

/-- Embedding of `decode_scripthash` of `src/scripthash.rs`: hex-decode, reject any
length other than 32, reverse, return the owned hash. -/
def decode_scripthash (hexstr : String) : Option FullHash :=
  match hexDecode hexstr with
  | none => none
  | some bytes =>
    if bytes.length ≠ 32 then none else some (full_hash bytes.reverse)

lemma unhexDigit_hexDigitChar (d : Nat) (hd : d < 16) :
    unhexDigit (hexDigitChar d) = some d := by
  interval_cases d <;> rfl

lemma hexDecodeChars_hexChars (bs : Bytes) (hb : ∀ b ∈ bs, b < 256) :
    hexDecodeChars (hexChars bs) = some bs := by
  induction bs with
  | nil => rfl
  | cons b bs ih =>
    have hblt : b < 256 := hb b (by simp)
    have h1 : b / 16 < 16 := by omega
    have h2 : b % 16 < 16 := by omega
    show hexDecodeChars (hexDigitChar (b / 16) :: hexDigitChar (b % 16)
        :: hexChars bs) = some (b :: bs)
    unfold hexDecodeChars
    rw [unhexDigit_hexDigitChar _ h1, unhexDigit_hexDigitChar _ h2,
      ih (fun x hx => hb x (by simp [hx]))]
    show some ((16 * (b / 16) + b % 16) :: bs) = some (b :: bs)
    have hbb : 16 * (b / 16) + b % 16 = b := by omega
    rw [hbb]

/-- C10.  Hex round trip of `decode_scripthash`: for every 32-byte hash
`h`, decoding its little-endian hex rendering gives back `h` exactly;
and any decodable input whose byte length is not 32 is rejected. -/
theorem c10_decode_scripthash_round_trip :
    (∀ h : FullHash, h.length = 32 → (∀ b ∈ h, b < 256) →
      decode_scripthash (to_le_hex h) = some h)
    ∧ (∀ (s : String) (bs : Bytes), hexDecode s = some bs →
      bs.length ≠ 32 → decode_scripthash s = none) := by
  constructor
  · intro h hlen hb
    unfold decode_scripthash to_le_hex hexEncode hexDecode
    rw [show (String.mk (hexChars h.reverse)).data = hexChars h.reverse
        from rfl]
    rw [hexDecodeChars_hexChars _ (fun b hbm => hb b (List.mem_reverse.mp hbm))]
    show (if h.reverse.length ≠ 32 then none
        else some (full_hash h.reverse.reverse)) = some h
    rw [if_neg (by simp [hlen])]
    rw [List.reverse_reverse]
    rfl
  · intro s bs hdec hlen
    unfold decode_scripthash
    rw [hdec]
    show (if bs.length ≠ 32 then none
        else some (full_hash bs.reverse)) = none
    rw [if_pos hlen]

/-- Witness for C10: the 32-byte hash 0, 1, ..., 31 round-trips, and the
4-character string aabb decodes to 2 bytes and is rejected. -/
theorem c10_decode_scripthash_round_trip_witness :
    (List.range 32).length = 32
    ∧ (∀ b ∈ List.range 32, b < 256)
    ∧ decode_scripthash (to_le_hex (List.range 32)) = some (List.range 32)
    ∧ hexDecode "aabb" = some [170, 187]
    ∧ ([170, 187] : Bytes).length ≠ 32
    ∧ decode_scripthash "aabb" = none :=
  ⟨by decide, by decide,
    c10_decode_scripthash_round_trip.1 (List.range 32) (by decide) (by decide),
    by decide, by decide,
    c10_decode_scripthash_round_trip.2 "aabb" [170, 187] (by decide)
      (by decide)⟩

/-!
Script-hash status (`Status` of `src/query/mod.rs`).  A status holds the
confirmed and mempool funding/spending entries; `history()` deduplicates
them by txid into a `HashMap<Txid, i32>` (modelled as an association
list with in-place override; the map iteration order, unspecified in the
source, is taken to be insertion order — the subsequent sort makes the
output canonical wherever the comparator is strict) and sorts with the
comparator of `Status::history`.  `ConfirmationState` is given the three
variants that the exhaustive match in `Status::history` handles.
-/

/-- Confirmation state of a history entry (see `tx_confirmation_state`):
confirmed on chain, in the mempool with all inputs confirmed, or in the
mempool with at least one in-mempool parent. -/
inductive ConfirmationState where
  | Confirmed
  | InMempool
  | UnconfirmedParent
deriving DecidableEq, Repr

/-- Embedding of `FundingOutput` of `src/query/primitives.rs`. -/
structure FundingOutput where
  txn_id : FullHash
  height : Nat
  output_index : Nat
  value : Nat
  state : ConfirmationState
deriving DecidableEq, Repr

/-- Embedding of `SpendingInput` of `src/query/primitives.rs`. -/
structure SpendingInput where
  txn_id : FullHash
  height : Nat
  funding_output : FullHash × Nat
  value : Nat
  state : ConfirmationState
deriving DecidableEq, Repr

/-- Embedding of `Status` of `src/query/mod.rs`: (funding, spending) for the
confirmed and the mempool view, plus per-txid mempool fees. -/
structure Status where
  confirmed : List FundingOutput × List SpendingInput
  mempool : List FundingOutput × List SpendingInput
  txn_fees : List (FullHash × Nat)
deriving DecidableEq, Repr

/-- Embedding of `Status::funding`: confirmed then mempool funding entries. -/
def Status.funding (s : Status) : List FundingOutput :=
  s.confirmed.1 ++ s.mempool.1

/-- Embedding of `Status::spending`: confirmed then mempool spending entries. -/
def Status.spending (s : Status) : List SpendingInput :=
  s.confirmed.2 ++ s.mempool.2

/-- The `match` of `Status::history` mapping a confirmation state and a
stored height (`u32`) to the JSON-facing `i32` height. -/
def confirmationHeight (st : ConfirmationState) (height : Nat) : Int :=
  match st with
  | .Confirmed => toI32 height
  | .InMempool => 0
  | .UnconfirmedParent => -1

/-- Embedding of `HistoryItem` of `src/query/mod.rs`. -/
structure HistoryItem where
  height : Int
  tx_hash : FullHash
  fee : Option Nat
deriving DecidableEq, Repr

/-- Embedding of `HashMap::insert` on an association list: override in place, append
a fresh key at the end. -/
def mapInsert (m : List (FullHash × Int)) (k : FullHash) (v : Int) :
    List (FullHash × Int) :=
  match m with
  | [] => [(k, v)]
  | e :: rest => if e.1 = k then (k, v) :: rest else e :: mapInsert rest k v

/-- The `txns_map` built by `Status::history`: funding entries first,
then spending entries (overriding equal txids). -/
def txnsMap (s : Status) : List (FullHash × Int) :=
  (Status.spending s).foldl
    (fun m sp => mapInsert m sp.txn_id (confirmationHeight sp.state sp.height))
    ((Status.funding s).foldl
      (fun m f => mapInsert m f.txn_id (confirmationHeight f.state f.height))
      [])

/-- Embedding of `self.txn_fees.get(&txid)` on the association list. -/
def lookupFee (fees : List (FullHash × Nat)) (k : FullHash) : Option Nat :=
  (fees.find? fun e => decide (e.1 = k)).map fun e => e.2

/-- The unsorted `items` vector of `Status::history`. -/
def historyItems (s : Status) : List HistoryItem :=
  (txnsMap s).map fun kv =>
    { height := kv.2, tx_hash := kv.1, fee := lookupFee s.txn_fees kv.1 }

/-- Embedding of `Ord::cmp` on `Nat` (`u8` values). -/
def natCmp (x y : Nat) : Ordering :=
  if x < y then .lt else if x = y then .eq else .gt

/-- Embedding of `Ord::cmp` on `Int` (`i32` values). -/
def intCmp (x y : Int) : Ordering :=
  if x < y then .lt else if x = y then .eq else .gt

/-- Embedding of `Txid::cmp`: lexicographic comparison of the 32 internal
(little-endian) bytes. -/
def byteCompare : Bytes → Bytes → Ordering
  | [], [] => .eq
  | [], _ :: _ => .lt
  | _ :: _, [] => .gt
  | a :: as, b :: bs =>
    match natCmp a b with
    | .eq => byteCompare as bs
    | o => o

/-- The comparator of `Status::history`: reversed txid comparison at
equal heights, plain height order when both heights are positive, and
otherwise the order of heights after replacing a non-positive height
`h` by `0xEE_EEEE + |h|` (`a.height.abs()` is modelled by `natAbs`;
the `i32` overflow of that addition, reachable only for heights above
`i32::MAX - 0xEE_EEEE`, is outside the modelled range). -/
def histCmp (a b : HistoryItem) : Ordering :=
  if a.height = b.height then byteCompare b.tx_hash a.tx_hash
  else if 0 < a.height ∧ 0 < b.height then intCmp a.height b.height
  else
    intCmp
      (if a.height ≤ 0 then 0xEEEEEE + (a.height.natAbs : Int) else a.height)
      (if b.height ≤ 0 then 0xEEEEEE + (b.height.natAbs : Int) else b.height)

/-- Boolean order for `sort_unstable_by(histCmp)`. -/
def histLe (a b : HistoryItem) : Bool :=
  decide (histCmp a b ≠ Ordering.gt)

/-- Embedding of `Status::history()` of `src/query/mod.rs`. -/
def Status.history (s : Status) : List HistoryItem :=
  sortBy histLe (historyItems s)

/-- The per-item string of the status hash:
`format!("{}:{}:", item.tx_hash.to_hex(), item.height)`
(`to_hex` on a txid renders the reversed bytes). -/
def historyFmt (it : HistoryItem) : String :=
  hexEncode it.tx_hash.reverse ++ ":" ++ toString it.height ++ ":"

/-- Embedding of `Status::hash()` of `src/query/mod.rs`: `None` on an empty history,
otherwise the single SHA-256 (`sha`, external `sha2` crate) of the
per-item strings fed to the hasher in history order. -/
def Status.hash (sha : String → FullHash) (s : Status) : Option FullHash :=
  if (Status.history s).isEmpty then none
  else
    some (sha ((Status.history s).foldl (fun acc it => acc ++ historyFmt it) ""))

lemma string_append_empty (x : String) : x ++ "" = x :=
  String.ext (by rw [String.data_append]; simp [show ("" : String).data = [] from rfl])

lemma string_foldl_shift (l : List String) (x : String) :
    l.foldl (· ++ ·) x = x ++ l.foldl (· ++ ·) "" := by
  induction l generalizing x with
  | nil => exact (string_append_empty x).symm
  | cons a l ih =>
    show l.foldl (· ++ ·) (x ++ a) = x ++ l.foldl (· ++ ·) ("" ++ a)
    rw [ih (x ++ a), ih ("" ++ a)]
    refine String.ext ?_
    simp [String.data_append, show ("" : String).data = [] from rfl]

lemma string_join_cons (a : String) (l : List String) :
    String.join (a :: l) = a ++ String.join l := by
  show (a :: l).foldl (· ++ ·) "" = a ++ l.foldl (· ++ ·) ""
  show l.foldl (· ++ ·) ("" ++ a) = a ++ l.foldl (· ++ ·) ""
  rw [string_foldl_shift l ("" ++ a)]
  refine String.ext ?_
  simp [String.data_append, show ("" : String).data = [] from rfl]

lemma foldl_fmt_join {α : Type} (f : α → String) (l : List α) (init : String) :
    l.foldl (fun acc it => acc ++ f it) init
      = init ++ String.join (l.map f) := by
  induction l generalizing init with
  | nil => exact (string_append_empty init).symm
  | cons a l ih =>
    show l.foldl (fun acc it => acc ++ f it) (init ++ f a)
      = init ++ String.join (f a :: l.map f)
    rw [ih (init ++ f a), string_join_cons]
    refine String.ext ?_
    simp [String.data_append]

/-- C2.  `Status::hash` is `None` exactly when the history is empty, and
otherwise it is the single SHA-256 of the concatenation, in history
order, of the strings txid-hex, colon, height, colon. -/
theorem c2_status_hash (sha : String → FullHash) (s : Status) :
    (Status.hash sha s = none ↔ Status.history s = [])
    ∧ (Status.history s ≠ [] →
      Status.hash sha s
        = some (sha (String.join ((Status.history s).map historyFmt)))) := by
  constructor
  · unfold Status.hash
    by_cases he : (Status.history s).isEmpty
    · rw [if_pos he]
      simp only [List.isEmpty_iff] at he
      simp [he]
    · rw [if_neg he]
      simp only [List.isEmpty_iff] at he
      simp [he]
  · intro hne
    unfold Status.hash
    rw [if_neg (by simp [List.isEmpty_iff, hne])]
    rw [foldl_fmt_join historyFmt (Status.history s) ""]
    refine congrArg some (congrArg sha (String.ext ?_))
    simp [String.data_append, show ("" : String).data = [] from rfl]

/-- A concrete status used by the C2 witness: a single confirmed
funding entry at height 3. -/
def statusW : Status :=
  { confirmed := ([⟨List.replicate 32 1, 3, 0, 5,
      ConfirmationState.Confirmed⟩], []),
    mempool := ([], []),
    txn_fees := [] }

/-- Witness for C2: on `statusW` the hash is present and equals the
digest of the joined history strings. -/
theorem c2_status_hash_witness :
    Status.hash (fun _ => nullHash) statusW
      = some ((fun _ => nullHash)
          (String.join ((Status.history statusW).map historyFmt))) :=
  (c2_status_hash (fun _ => nullHash) statusW).2 (by decide)

lemma natCmp_swap (a b : Nat) : (natCmp a b).swap = natCmp b a := by
  unfold natCmp
  by_cases h1 : a < b
  · rw [if_pos h1, if_neg (by omega), if_neg (by omega)]
    rfl
  · by_cases h2 : a = b
    · subst h2
      rw [if_neg h1, if_pos rfl]
      rfl
    · rw [if_neg h1, if_neg h2, if_pos (by omega)]
      rfl

lemma intCmp_swap (a b : Int) : (intCmp a b).swap = intCmp b a := by
  unfold intCmp
  by_cases h1 : a < b
  · rw [if_pos h1, if_neg (by omega), if_neg (by omega)]
    rfl
  · by_cases h2 : a = b
    · subst h2
      rw [if_neg h1, if_pos rfl]
      rfl
    · rw [if_neg h1, if_neg h2, if_pos (by omega)]
      rfl

lemma intCmp_ne_gt (x y : Int) : intCmp x y ≠ Ordering.gt ↔ x ≤ y := by
  unfold intCmp
  by_cases h1 : x < y
  · rw [if_pos h1]
    simp
    omega
  · by_cases h2 : x = y
    · rw [if_neg h1, if_pos h2]
      simp
      omega
    · rw [if_neg h1, if_neg h2]
      simp
      omega

lemma byteCompare_swap (x y : Bytes) : (byteCompare x y).swap = byteCompare y x := by
  induction x generalizing y with
  | nil => cases y <;> rfl
  | cons a as ih =>
    cases y with
    | nil => rfl
    | cons b bs =>
      show (match natCmp a b with
          | Ordering.eq => byteCompare as bs
          | o => o).swap
        = (match natCmp b a with
          | Ordering.eq => byteCompare bs as
          | o => o)
      rw [← natCmp_swap b a]
      cases natCmp b a with
      | lt => rfl
      | eq => exact ih bs
      | gt => rfl

lemma byteCompare_cons_ne_gt (a b : Nat) (as bs : Bytes) :
    byteCompare (a :: as) (b :: bs) ≠ Ordering.gt
      ↔ (a < b ∨ (a = b ∧ byteCompare as bs ≠ Ordering.gt)) := by
  show (match natCmp a b with
      | Ordering.eq => byteCompare as bs
      | o => o) ≠ Ordering.gt ↔ _
  unfold natCmp
  by_cases h1 : a < b
  · rw [if_pos h1]
    simp [h1]
  · by_cases h2 : a = b
    · rw [if_neg h1, if_pos h2]
      simp [h1, h2]
    · rw [if_neg h1, if_neg h2]
      simp [h1, h2]

lemma byteCompare_ne_gt_trans (x y z : Bytes)
    (h1 : byteCompare x y ≠ Ordering.gt)
    (h2 : byteCompare y z ≠ Ordering.gt) :
    byteCompare x z ≠ Ordering.gt := by
  induction x generalizing y z with
  | nil => cases z <;> simp [byteCompare]
  | cons a as ih =>
    cases y with
    | nil => exact absurd rfl h1
    | cons b bs =>
      cases z with
      | nil => simp [byteCompare] at h2
      | cons c cs =>
        rw [byteCompare_cons_ne_gt] at h1 h2 ⊢
        rcases h1 with h1 | ⟨rfl, h1⟩
        · rcases h2 with h2 | ⟨rfl, h2⟩
          · exact Or.inl (by omega)
          · exact Or.inl h1
        · rcases h2 with h2 | ⟨rfl, h2⟩
          · exact Or.inl h2
          · exact Or.inr ⟨rfl, ih bs cs h1 h2⟩

/-- The comparator key used in the non-positive branch. -/
def histKey (it : HistoryItem) : Int :=
  if it.height ≤ 0 then 0xEEEEEE + (it.height.natAbs : Int) else it.height

lemma histKey_congr (a b : HistoryItem) (h : a.height = b.height) :
    histKey a = histKey b := by
  unfold histKey
  rw [h]

lemma histCmp_char (a b : HistoryItem) :
    histCmp a b = if a.height = b.height then byteCompare b.tx_hash a.tx_hash
      else intCmp (histKey a) (histKey b) := by
  unfold histCmp histKey
  by_cases h1 : a.height = b.height
  · rw [if_pos h1, if_pos h1]
  · rw [if_neg h1, if_neg h1]
    by_cases h2 : 0 < a.height ∧ 0 < b.height
    · rw [if_pos h2, if_neg (by omega), if_neg (by omega)]
    · rw [if_neg h2]

/-- Bound under which the comparator behaves as the spec describes. -/
def inRange (it : HistoryItem) : Prop :=
  -1 ≤ it.height ∧ it.height < 0xEEEEEE

lemma histKey_inj (a b : HistoryItem) (ha : inRange a) (hb : inRange b)
    (h : histKey a = histKey b) : a.height = b.height := by
  unfold inRange at ha hb
  unfold histKey at h
  by_cases h1 : a.height ≤ 0
  · by_cases h2 : b.height ≤ 0
    · rw [if_pos h1, if_pos h2] at h
      omega
    · rw [if_pos h1, if_neg h2] at h
      omega
  · by_cases h2 : b.height ≤ 0
    · rw [if_neg h1, if_pos h2] at h
      omega
    · rw [if_neg h1, if_neg h2] at h
      omega

lemma histCmp_swap (a b : HistoryItem) : (histCmp a b).swap = histCmp b a := by
  rw [histCmp_char, histCmp_char]
  by_cases h1 : a.height = b.height
  · rw [if_pos h1, if_pos h1.symm]
    exact byteCompare_swap _ _
  · rw [if_neg h1, if_neg (fun h => h1 h.symm)]
    exact intCmp_swap _ _

lemma histLe_total (a b : HistoryItem) : histLe a b ∨ histLe b a := by
  by_cases h : histCmp a b = Ordering.gt
  · right
    unfold histLe
    have hs := histCmp_swap a b
    rw [h] at hs
    rw [decide_eq_true_iff, ← hs]
    decide
  · left
    unfold histLe
    rw [decide_eq_true_iff]
    exact h

lemma histLe_trans (a b c : HistoryItem) (ha : inRange a) (hb : inRange b)
    (hc : inRange c) (h1 : histLe a b) (h2 : histLe b c) : histLe a c := by
  unfold histLe at h1 h2 ⊢
  rw [decide_eq_true_iff] at h1 h2
  rw [decide_eq_true_iff]
  rw [histCmp_char] at h1 h2 ⊢
  by_cases hab : a.height = b.height
  · rw [if_pos hab] at h1
    by_cases hbc : b.height = c.height
    · rw [if_pos hbc] at h2
      rw [if_pos (hab.trans hbc)]
      exact byteCompare_ne_gt_trans _ _ _ h2 h1
    · rw [if_neg hbc, intCmp_ne_gt] at h2
      have hkab : histKey a = histKey b := histKey_congr a b hab
      have hac : ¬ a.height = c.height := by
        intro h
        apply hbc
        apply histKey_inj b c hb hc
        have hkac : histKey a = histKey c := histKey_congr a c h
        omega
      rw [if_neg hac, intCmp_ne_gt]
      omega
  · rw [if_neg hab, intCmp_ne_gt] at h1
    by_cases hbc : b.height = c.height
    · rw [if_pos hbc] at h2
      have hkbc : histKey b = histKey c := histKey_congr b c hbc
      have hac : ¬ a.height = c.height := by
        intro h
        apply hab
        apply histKey_inj a b ha hb
        have hkac : histKey a = histKey c := histKey_congr a c h
        omega
      rw [if_neg hac, intCmp_ne_gt]
      omega
    · rw [if_neg hbc, intCmp_ne_gt] at h2
      have hac : ¬ a.height = c.height := by
        intro h
        apply hab
        apply histKey_inj a b ha hb
        have hkac : histKey a = histKey c := histKey_congr a c h
        omega
      rw [if_neg hac, intCmp_ne_gt]
      omega

lemma mem_mapInsert (m : List (FullHash × Int)) (k0 : FullHash) (v0 : Int)
    (kv : FullHash × Int) (h : kv ∈ mapInsert m k0 v0) :
    kv = (k0, v0) ∨ kv ∈ m := by
  induction m with
  | nil => simpa [mapInsert] using h
  | cons e rest ih =>
    unfold mapInsert at h
    by_cases he : e.1 = k0
    · rw [if_pos he] at h
      rcases List.mem_cons.mp h with h | h
      · exact Or.inl h
      · exact Or.inr (List.mem_cons.mpr (Or.inr h))
    · rw [if_neg he] at h
      rcases List.mem_cons.mp h with h | h
      · exact Or.inr (List.mem_cons.mpr (Or.inl h))
      · rcases ih h with h | h
        · exact Or.inl h
        · exact Or.inr (List.mem_cons.mpr (Or.inr h))

lemma mem_foldl_mapInsert {α : Type} (key : α → FullHash) (val : α → Int)
    (l : List α) (m0 : List (FullHash × Int)) (kv : FullHash × Int)
    (h : kv ∈ l.foldl (fun m x => mapInsert m (key x) (val x)) m0) :
    kv ∈ m0 ∨ ∃ x ∈ l, kv = (key x, val x) := by
  induction l generalizing m0 with
  | nil => exact Or.inl h
  | cons a l ih =>
    rw [List.foldl_cons] at h
    rcases ih (mapInsert m0 (key a) (val a)) h with h | ⟨x, hx, hkv⟩
    · rcases mem_mapInsert _ _ _ _ h with h | h
      · exact Or.inr ⟨a, by simp, h⟩
      · exact Or.inl h
    · exact Or.inr ⟨x, by simp [hx], hkv⟩

lemma toI32_small (n : Nat) (h : n < 2 ^ 31) : toI32 n = n := by
  unfold toI32
  rw [Nat.mod_eq_of_lt (by omega)]
  rw [if_pos h]

/-- C3 (amended).  For a status whose confirmed entries all have heights
strictly between 0 and 0xEE_EEEE (all real chains: the bound is about
15.6 million blocks), `Status::history()` maps entry heights through
the confirmed/in-mempool/unconfirmed-parent scheme, and the output is
sorted with confirmed (positive-height) entries first in ascending
height order, all non-positive (mempool) entries last, and equal-height
ties ordered by reversed txid comparison.  Without the height bound the
comparator key 0xEE_EEEE + |h| collides with or exceeds genuine
confirmed heights and mempool entries are no longer last (see the
counterexample). -/
theorem c3_history_order (s : Status)
    (hf : ∀ f ∈ Status.funding s, f.state = ConfirmationState.Confirmed →
      0 < f.height ∧ f.height < 0xEEEEEE)
    (hsp : ∀ sp ∈ Status.spending s, sp.state = ConfirmationState.Confirmed →
      0 < sp.height ∧ sp.height < 0xEEEEEE) :
    (∀ it ∈ Status.history s,
      (∃ f ∈ Status.funding s, it.tx_hash = f.txn_id
          ∧ it.height = confirmationHeight f.state f.height)
      ∨ ∃ sp ∈ Status.spending s, it.tx_hash = sp.txn_id
          ∧ it.height = confirmationHeight sp.state sp.height)
    ∧ List.Pairwise (fun a b : HistoryItem =>
        (0 < a.height → 0 < b.height → a.height ≤ b.height)
        ∧ (a.height ≤ 0 → b.height ≤ 0)
        ∧ (a.height = b.height →
            byteCompare b.tx_hash a.tx_hash ≠ Ordering.gt))
      (Status.history s) := by
  have hprov : ∀ it ∈ Status.history s,
      (∃ f ∈ Status.funding s, it.tx_hash = f.txn_id
          ∧ it.height = confirmationHeight f.state f.height)
      ∨ ∃ sp ∈ Status.spending s, it.tx_hash = sp.txn_id
          ∧ it.height = confirmationHeight sp.state sp.height := by
    intro it hit
    have hit' : it ∈ historyItems s := (mem_sortBy _ _ _).mp hit
    rcases List.mem_map.mp hit' with ⟨kv, hkv, rfl⟩
    unfold txnsMap at hkv
    rcases mem_foldl_mapInsert _ _ _ _ _ hkv with hkv | ⟨sp, hspm, hkveq⟩
    · rcases mem_foldl_mapInsert _ _ _ _ _ hkv with hkv | ⟨f, hfm, hkveq⟩
      · simp at hkv
      · left
        exact ⟨f, hfm, by rw [hkveq], by rw [hkveq]⟩
    · right
      exact ⟨sp, hspm, by rw [hkveq], by rw [hkveq]⟩
  have hrange : ∀ it ∈ Status.history s, inRange it := by
    intro it hit
    rcases hprov it hit with ⟨f, hfm, -, hh⟩ | ⟨sp, hspm, -, hh⟩
    · unfold inRange
      rw [hh]
      cases hstate : f.state with
      | Confirmed =>
        have hb := hf f hfm hstate
        rw [show confirmationHeight ConfirmationState.Confirmed f.height
              = toI32 f.height from rfl,
          toI32_small f.height (by omega)]
        omega
      | InMempool =>
        rw [show confirmationHeight ConfirmationState.InMempool f.height
              = 0 from rfl]
        omega
      | UnconfirmedParent =>
        rw [show confirmationHeight ConfirmationState.UnconfirmedParent
              f.height = -1 from rfl]
        omega
    · unfold inRange
      rw [hh]
      cases hstate : sp.state with
      | Confirmed =>
        have hb := hsp sp hspm hstate
        rw [show confirmationHeight ConfirmationState.Confirmed sp.height
              = toI32 sp.height from rfl,
          toI32_small sp.height (by omega)]
        omega
      | InMempool =>
        rw [show confirmationHeight ConfirmationState.InMempool sp.height
              = 0 from rfl]
        omega
      | UnconfirmedParent =>
        rw [show confirmationHeight ConfirmationState.UnconfirmedParent
              sp.height = -1 from rfl]
        omega
  refine ⟨hprov, ?_⟩
  have hrange' : ∀ it ∈ historyItems s, inRange it := fun it hit =>
    hrange it ((mem_sortBy _ _ _).mpr hit)
  have hp : List.Pairwise (fun a b => histLe a b = true) (Status.history s) := by
    unfold Status.history
    exact pairwise_sortBy histLe histLe_total (historyItems s)
      fun x hx y hy z hz => histLe_trans x y z (hrange' x hx) (hrange' y hy)
        (hrange' z hz)
  refine List.Pairwise.imp_of_mem ?_ hp
  intro a b ha hb hle
  have hA := hrange a ha
  have hB := hrange b hb
  unfold inRange at hA hB
  unfold histLe at hle
  rw [decide_eq_true_iff, histCmp_char] at hle
  by_cases hab : a.height = b.height
  · rw [if_pos hab] at hle
    exact ⟨fun _ _ => le_of_eq hab, fun h => hab ▸ h, fun _ => hle⟩
  · rw [if_neg hab, intCmp_ne_gt] at hle
    refine ⟨?_, ?_, fun h => absurd h hab⟩
    · intro hA0 hB0
      unfold histKey at hle
      rw [if_neg (by omega), if_neg (by omega)] at hle
      omega
    · intro hA0
      by_contra hB0
      push_neg at hB0
      unfold histKey at hle
      rw [if_pos hA0, if_neg (by omega)] at hle
      have habs : (0 : Int) ≤ (a.height.natAbs : Int) := Int.ofNat_nonneg _
      omega

/-- Witness for C3: on `statusW` (one confirmed entry at height 3) the
hypotheses hold and the history is sorted as claimed. -/
theorem c3_history_order_witness :
    ((0 : Int) < 3 ∧ (3 : Int) < 0xEEEEEE)
    ∧ List.Pairwise (fun a b : HistoryItem =>
        (0 < a.height → 0 < b.height → a.height ≤ b.height)
        ∧ (a.height ≤ 0 → b.height ≤ 0)
        ∧ (a.height = b.height →
            byteCompare b.tx_hash a.tx_hash ≠ Ordering.gt))
      (Status.history statusW) :=
  ⟨⟨by decide, by decide⟩,
    (c3_history_order statusW (by decide) (by decide)).2⟩

/-- A status falsifying the mempool-last clause of C3 as stated: a
confirmed funding entry at height 0xEE_EEEF and an in-mempool funding
entry. -/
def statusC : Status :=
  { confirmed := ([⟨List.replicate 32 2, 0xEEEEEF, 0, 5,
      ConfirmationState.Confirmed⟩], []),
    mempool := ([⟨List.replicate 32 1, MEMPOOL_HEIGHT, 0, 7,
      ConfirmationState.InMempool⟩], []),
    txn_fees := [] }

/-- Counterexample for C3 as stated: on `statusC` the history places the
in-mempool entry (JSON height 0) before the confirmed entry (height
0xEE_EEEF), because the comparator key 0xEE_EEEE + |0| is smaller than
that confirmed height; so non-positive-height entries do not all come
last. -/
theorem c3_mempool_not_last_counterexample :
    ((Status.history statusC).map fun it => it.height) = [0, 0xEEEEEF]
    ∧ ¬ List.Pairwise (fun a b : HistoryItem => a.height ≤ 0 → b.height ≤ 0)
        (Status.history statusC) := by
  constructor
  · decide
  · decide

/-!
First use of a script hash (`Query::scripthash_first_use` of
`src/query/mod.rs` and `get_first_use` of `src/rpc/scripthash.rs`).
Stores are key-ordered row lists; the transaction fetch
(`self.tx.get`, backed by cache and node) is the oracle `getTx`, whose
failure propagates out of the query.
-/

/-- Embedding of `bincode::deserialize` of a `u32` row value (little-endian). -/
def u32FromLE (b : Bytes) : Nat :=
  (b.take 4).reverse.foldl (fun acc x => acc * 256 + x) 0

/-- A parsed `T` row (`TxRow` seen by the query side). -/
structure TxRowQ where
  txid : Bytes
  height : Nat
deriving DecidableEq, Repr

/-- Embedding of `ReadStore::scan(prefix)`: the rows whose keys extend the prefix. -/
def scanStore (store : List Row) (pre : Bytes) : List Row :=
  store.filter fun r => pre.isPrefixOf r.key

/-- Embedding of `txoutrows_by_script_hash` of `src/query/queryutil.rs`, projected to
the txid prefixes used by `scripthash_first_use`: scan the `O` rows by
`TxOutRow::filter(script_hash)` and read each row's `txid_prefix`
(bytes 9 to 16 of the serialized key). -/
def txoutrowTxidPres (store : List Row) (script_hash : Bytes) : List Bytes :=
  (scanStore store ([0x4F] ++ prefix8 (script_hash.take HASH_PREFIX_LEN))).map
    fun r => (r.key.drop 9).take 8

/-- Embedding of `txrows_by_prefix` of `src/query/queryutil.rs`: scan the `T` rows by
`TxRow::filter_prefix` and parse them back (`TxRow::from_row`). -/
def txrows_by_pre (store : List Row) (p : Bytes) : List TxRowQ :=
  (scanStore store ([0x54] ++ p)).map fun r =>
    ⟨r.key.drop 1, u32FromLE r.value⟩

/-- The candidate rows of the `get_tx` closure in
`scripthash_first_use`: `T` rows of every `O`-row txid prefix. -/
def firstUseCandidates (store : List Row) (script_hash : Bytes) :
    List TxRowQ :=
  ((txoutrowTxidPres store script_hash).map
    fun p => txrows_by_pre store p).flatten

/-- Boolean order for `txs.sort_unstable_by(|a, b| a.height.cmp(&b.height))`. -/
def heightLe (a b : TxRowQ) : Bool := decide (a.height ≤ b.height)

/-- The verification loop of the `get_tx` closure: fetch each candidate
transaction and return the first whose outputs contain the queried full
32-byte script hash; `(0, Txid::default())` marks no-match. -/
def firstUseScan (getTx : Bytes → Option Transaction)
    (sha : Bytes → FullHash) (script_hash : Bytes) :
    List TxRowQ → Except Unit (Nat × Bytes)
  | [] => .ok (0, nullHash)
  | r :: rest =>
    match getTx r.txid with
    | none => .error ()
    | some tx =>
      if tx.output.any fun o => decide (sha o.script_pubkey = script_hash)
      then .ok (r.height, r.txid)
      else firstUseScan getTx sha script_hash rest

/-- Embedding of `Query::scripthash_first_use` of `src/query/mod.rs`: run `get_tx`
on the blockchain store; on a non-zero height return it, otherwise try
the mempool index. -/
def scripthash_first_use (getTx : Bytes → Option Transaction)
    (sha : Bytes → FullHash) (confStore mempStore : List Row)
    (script_hash : Bytes) : Except Unit (Nat × Bytes) :=
  match firstUseScan getTx sha script_hash
      (sortBy heightLe (firstUseCandidates confStore script_hash)) with
  | .error e => .error e
  | .ok t =>
    if t.1 ≠ 0 then .ok t
    else firstUseScan getTx sha script_hash
      (sortBy heightLe (firstUseCandidates mempStore script_hash))

/-- RPC-visible errors of `get_first_use` (`RpcErrorCode` values of
`src/errors.rs`): `NotFound` for a zero first-use height, otherwise the
propagated query failure surfaces as internal. -/
inductive RpcErr where
  | notFound
  | internal
deriving DecidableEq, Repr

/-- The numeric RPC code (`src/errors.rs`). -/
def RpcErr.code : RpcErr → Int
  | .notFound => -32004
  | .internal => -32603

/-- Embedding of `get_first_use` of `src/rpc/scripthash.rs`, up to the JSON
assembly: a result with height 0 becomes the NotFound error. -/
def get_first_use (getTx : Bytes → Option Transaction)
    (sha : Bytes → FullHash) (confStore mempStore : List Row)
    (script_hash : Bytes) : Except RpcErr (Nat × Bytes) :=
  match scripthash_first_use getTx sha confStore mempStore script_hash with
  | .error _ => .error .internal
  | .ok fu => if fu.1 = 0 then .error .notFound else .ok fu

/-- The specification-side selection: the first candidate row, in the
given order, whose fetched transaction really has an output with the
queried full script hash. -/
def specFirstMatch (getTx : Bytes → Option Transaction)
    (sha : Bytes → FullHash) (script_hash : Bytes) (rows : List TxRowQ) :
    Option (Nat × Bytes) :=
  (rows.find? fun r =>
    match getTx r.txid with
    | some tx => tx.output.any fun o => decide (sha o.script_pubkey = script_hash)
    | none => false).map fun r => (r.height, r.txid)

lemma firstUseScan_eq (getTx : Bytes → Option Transaction)
    (sha : Bytes → FullHash) (script_hash : Bytes) (rows : List TxRowQ)
    (hfetch : ∀ r ∈ rows, (getTx r.txid).isSome) :
    firstUseScan getTx sha script_hash rows
      = match rows.find? fun r =>
          match getTx r.txid with
          | some tx => tx.output.any fun o =>
              decide (sha o.script_pubkey = script_hash)
          | none => false with
        | some r => .ok (r.height, r.txid)
        | none => .ok (0, nullHash) := by
  induction rows with
  | nil => rfl
  | cons r rest ih =>
    match hget : getTx r.txid with
    | none =>
      exact absurd (hfetch r (by simp)) (by simp [hget])
    | some tx =>
      simp only [firstUseScan, hget]
      by_cases hp : (tx.output.any fun o =>
          decide (sha o.script_pubkey = script_hash)) = true
      · rw [if_pos hp]
        rw [List.find?_cons_of_pos _ (by rw [hget]; exact hp)]
      · rw [if_neg hp]
        rw [List.find?_cons_of_neg _ (by rw [hget]; simpa using hp)]
        exact ih fun x hx => hfetch x (by simp [hx])

/-- C6 (amended).  `scripthash_first_use` scans the confirmed store
first and the mempool store second, sorts the candidate `T` rows by
height ascending, accepts a candidate only when the fetched transaction
has an output whose full 32-byte script hash equals the queried hash,
and `get_first_use` returns the first confirmed match, otherwise the
first mempool match, otherwise the NotFound error (RPC code -32004) —
provided every candidate can be fetched and no candidate has a stored
height of 0 (the code uses height 0 as its internal no-match sentinel,
so a genuine height-0 confirmed match, possible only for the genesis
block, is reported as NotFound; see the counterexample). -/
theorem c6_first_use_spec (getTx : Bytes → Option Transaction)
    (sha : Bytes → FullHash) (confStore mempStore : List Row)
    (script_hash : Bytes)
    (hfc : ∀ r ∈ sortBy heightLe (firstUseCandidates confStore script_hash),
      (getTx r.txid).isSome)
    (hfm : ∀ r ∈ sortBy heightLe (firstUseCandidates mempStore script_hash),
      (getTx r.txid).isSome)
    (hnzc : ∀ r ∈ sortBy heightLe (firstUseCandidates confStore script_hash),
      r.height ≠ 0)
    (hnzm : ∀ r ∈ sortBy heightLe (firstUseCandidates mempStore script_hash),
      r.height ≠ 0) :
    (get_first_use getTx sha confStore mempStore script_hash
      = match specFirstMatch getTx sha script_hash
            (sortBy heightLe (firstUseCandidates confStore script_hash)),
          specFirstMatch getTx sha script_hash
            (sortBy heightLe (firstUseCandidates mempStore script_hash)) with
        | some m, _ => .ok m
        | none, some m => .ok m
        | none, none => .error RpcErr.notFound)
    ∧ RpcErr.code RpcErr.notFound = -32004
    ∧ List.Pairwise (fun a b : TxRowQ => a.height ≤ b.height)
        (sortBy heightLe (firstUseCandidates confStore script_hash)) := by
  refine ⟨?_, rfl, ?_⟩
  · unfold get_first_use scripthash_first_use specFirstMatch
    rw [firstUseScan_eq _ _ _ _ hfc, firstUseScan_eq _ _ _ _ hfm]
    cases hc : (sortBy heightLe (firstUseCandidates confStore
        script_hash)).find? fun r =>
          match getTx r.txid with
          | some tx => tx.output.any fun o =>
              decide (sha o.script_pubkey = script_hash)
          | none => false with
    | some r =>
      have hr : r.height ≠ 0 := hnzc r (List.mem_of_find?_eq_some hc)
      dsimp only
      rw [if_pos hr]
      show (if r.height = 0
          then (Except.error RpcErr.notFound : Except RpcErr (Nat × Bytes))
          else Except.ok (r.height, r.txid))
        = Except.ok (r.height, r.txid)
      rw [if_neg hr]
    | none =>
      dsimp only
      rw [if_neg (by simp)]
      cases hm : (sortBy heightLe (firstUseCandidates mempStore
          script_hash)).find? fun r =>
            match getTx r.txid with
            | some tx => tx.output.any fun o =>
                decide (sha o.script_pubkey = script_hash)
            | none => false with
      | some r =>
        have hr : r.height ≠ 0 := hnzm r (List.mem_of_find?_eq_some hm)
        show (if r.height = 0
            then (Except.error RpcErr.notFound : Except RpcErr (Nat × Bytes))
            else Except.ok (r.height, r.txid))
          = Except.ok (r.height, r.txid)
        rw [if_neg hr]
      | none =>
        show (if (0 : Nat) = 0
            then (Except.error RpcErr.notFound : Except RpcErr (Nat × Bytes))
            else Except.ok (0, nullHash))
          = Except.error RpcErr.notFound
        rw [if_pos rfl]
  · refine List.Pairwise.imp ?_ (pairwise_sortBy heightLe
      (fun a b => by unfold heightLe; rcases Nat.le_total a.height b.height
          with h | h <;> simp [h])
      (firstUseCandidates confStore script_hash)
      (fun x _ y _ z _ hxy hyz => by
        unfold heightLe at hxy hyz ⊢
        rw [decide_eq_true_iff] at hxy hyz
        rw [decide_eq_true_iff]
        omega))
    intro a b h
    unfold heightLe at h
    exact decide_eq_true_iff.mp h

/-- Concrete instances for the C6 witness and counterexample. -/
def shG : FullHash := List.replicate 32 7

/-- A concrete txid. -/
def txidG : FullHash := 9 :: List.replicate 31 0

/-- A concrete output script. -/
def scriptG : Bytes := [81]

/-- A concrete stand-in for `compute_script_hash` mapping every script
to `shG`. -/
def shaG : Bytes → FullHash := fun _ => shG

/-- The transaction paying `scriptG`. -/
def txG : Transaction := { txid := txidG, input := [], output := [⟨scriptG, 50⟩] }

/-- The fetch oracle knowing only `txG`. -/
def getTxG : Bytes → Option Transaction :=
  fun t => if t = txidG then some txG else none

/-- Confirmed store rows for `txG` confirmed at height 5. -/
def confStoreW : List Row :=
  [TxOutRow.new shaG txidG ⟨scriptG, 50⟩ 0, TxRow.new txidG 5]

/-- Witness for C6: with `txG` confirmed at height 5 and an empty
mempool, `get_first_use` returns that confirmed match. -/
theorem c6_first_use_spec_witness :
    get_first_use getTxG shaG confStoreW [] shG = .ok (5, txidG) :=
  ((c6_first_use_spec getTxG shaG confStoreW [] shG
    (by decide) (by decide) (by decide) (by decide)).1).trans (by rfl)

/-- Confirmed store rows for `txG` confirmed at height 0 (the genesis
block). -/
def confStoreZ : List Row :=
  [TxOutRow.new shaG txidG ⟨scriptG, 50⟩ 0, TxRow.new txidG 0]

/-- Counterexample for C6 as stated: with a confirmed match at height 0
the claim says the confirmed match is returned, but the code reports
NotFound (its no-match sentinel is the height 0). -/
theorem c6_first_use_counterexample :
    specFirstMatch getTxG shaG shG
        (sortBy heightLe (firstUseCandidates confStoreZ shG))
      = some (0, txidG)
    ∧ get_first_use getTxG shaG confStoreZ [] shG = .error RpcErr.notFound := by
  constructor
  · rfl
  · rfl

end ElectrsCash
